import Mathlib

/-!
Shallow embedding of the `ts-semaphore` repository (`src/semaphore.ts`).

The TypeScript class `Semaphore` holds an integer `capacityLeft` and an
array `queue` of pending resume-continuations.  We model a continuation by
a natural-number identifier of the suspended caller, the state as a
structure, and the two mutating methods `down` and `up` as pure functions
returning the updated state together with what the caller observes:
`down` reports whether it completed immediately or suspended the caller,
`up` reports which waiter (if any) it resumed.
-/

/-- Outcome of a `down` call, as observed by the caller: the TypeScript
method either returns at once (`immediate`) or returns a pending promise
whose resolver is pushed on the queue (`suspended`). -/
inductive DownResult where
  | immediate
  | suspended
deriving DecidableEq, Repr

/-- State of the TypeScript `Semaphore` class: the integer field
`capacityLeft` and the array `queue` of queued continuations, each
represented by the identifier of the task that suspended. -/
structure Semaphore where
  capacityLeft : Int
  queue : List Nat
deriving DecidableEq, Repr

/-- `constructor(capacity)`: sets `capacityLeft = capacity` and
`queue = []`, with no validation of the argument. -/
def Semaphore.create (capacity : Int) : Semaphore :=
  { capacityLeft := capacity, queue := [] }

/-- `down()`: if `capacityLeft > 0`, decrement it and return immediately;
otherwise push the caller's resolver onto the end of the queue and leave
`capacityLeft` untouched. -/
def Semaphore.down (s : Semaphore) (id : Nat) : Semaphore × DownResult :=
  if s.capacityLeft > 0 then
    ({ s with capacityLeft := s.capacityLeft - 1 }, DownResult.immediate)
  else
    ({ s with queue := s.queue ++ [id] }, DownResult.suspended)

/-- `up()`: if the queue is empty, increment `capacityLeft`; otherwise
`shift()` the front continuation off the queue and invoke it, leaving
`capacityLeft` unchanged.  The second component records the resumed
waiter, if any. -/
def Semaphore.up (s : Semaphore) : Semaphore × Option Nat :=
  match s.queue with
  | [] => ({ s with capacityLeft := s.capacityLeft + 1 }, none)
  | w :: rest => ({ s with queue := rest }, some w)

/-- An operation on the semaphore: an acquire by a given task, or a
release. -/
inductive Op where
  | down (id : Nat)
  | up
deriving DecidableEq, Repr

/-- One operation applied to a state (dropping the caller-visible
result). -/
def stepOp (s : Semaphore) (op : Op) : Semaphore :=
  match op with
  | Op.down id => (s.down id).1
  | Op.up => s.up.1

/-- A sequence of operations applied in order. -/
def run (s : Semaphore) (ops : List Op) : Semaphore :=
  ops.foldl stepOp s

/-- `n` consecutive `up()` calls; the second component lists the waiters
resumed by those calls, in the order they were resumed. -/
def runUps (s : Semaphore) : Nat → Semaphore × List Nat
  | 0 => (s, [])
  | n + 1 =>
    let p := s.up
    let q := runUps p.1 n
    (q.1, p.2.toList ++ q.2)

/-- Consecutive `down()` calls by the listed tasks; the second component
records each call's observed outcome, in call order. -/
def runDowns (s : Semaphore) : List Nat → Semaphore × List DownResult
  | [] => (s, [])
  | id :: ids =>
    let p := s.down id
    let q := runDowns p.1 ids
    (q.1, p.2 :: q.2)

/-- A sequence of operations, recording the outcome of every `down` call
in order. -/
def runTrace (s : Semaphore) : List Op → Semaphore × List DownResult
  | [] => (s, [])
  | Op.down id :: ops =>
    let p := s.down id
    let q := runTrace p.1 ops
    (q.1, p.2 :: q.2)
  | Op.up :: ops => runTrace s.up.1 ops

/-- Number of `down` operations in a sequence. -/
def countDowns (ops : List Op) : Nat :=
  ops.countP fun op => match op with | Op.down _ => true | Op.up => false

/-- Number of `up` operations in a sequence. -/
def countUps (ops : List Op) : Nat :=
  ops.countP fun op => match op with | Op.down _ => false | Op.up => true

/- ### Basic case lemmas about the two methods -/

theorem down_pos (s : Semaphore) (id : Nat) (h : s.capacityLeft > 0) :
    s.down id = ({ s with capacityLeft := s.capacityLeft - 1 }, DownResult.immediate) := by
  simp [Semaphore.down, h]

theorem down_nonpos (s : Semaphore) (id : Nat) (h : s.capacityLeft ≤ 0) :
    s.down id = ({ s with queue := s.queue ++ [id] }, DownResult.suspended) := by
  simp [Semaphore.down, not_lt.mpr h]

theorem up_nil (s : Semaphore) (h : s.queue = []) :
    s.up = ({ s with capacityLeft := s.capacityLeft + 1 }, none) := by
  simp [Semaphore.up, h]

theorem up_cons (s : Semaphore) (w : Nat) (rest : List Nat) (h : s.queue = w :: rest) :
    s.up = ({ s with queue := rest }, some w) := by
  simp [Semaphore.up, h]

/-- C1: `down` with positive capacity decrements the counter by one,
leaves the queue alone and completes immediately; with non-positive
capacity it leaves the counter alone, appends the caller's continuation
to the end of the queue and suspends the caller. -/
theorem down_spec (s : Semaphore) (id : Nat) :
    (s.capacityLeft > 0 →
      (s.down id).1.capacityLeft = s.capacityLeft - 1 ∧
      (s.down id).1.queue = s.queue ∧
      (s.down id).2 = DownResult.immediate) ∧
    (s.capacityLeft ≤ 0 →
      (s.down id).1.capacityLeft = s.capacityLeft ∧
      (s.down id).1.queue = s.queue ++ [id] ∧
      (s.down id).2 = DownResult.suspended) := by
  constructor
  · intro h
    rw [down_pos s id h]
    exact ⟨rfl, rfl, rfl⟩
  · intro h
    rw [down_nonpos s id h]
    exact ⟨rfl, rfl, rfl⟩

/-- Witness for C1: evaluates `down` on the concrete states `⟨2, []⟩`
(immediate) and `⟨0, [3]⟩` (suspended). -/
theorem down_spec_witness :
    (Semaphore.down (Semaphore.mk 2 []) 0).1.capacityLeft = 1 ∧
    (Semaphore.down (Semaphore.mk 2 []) 0).2 = DownResult.immediate ∧
    (Semaphore.down (Semaphore.mk 0 [3]) 7).1.queue = [3, 7] ∧
    (Semaphore.down (Semaphore.mk 0 [3]) 7).2 = DownResult.suspended := by
  have h1 := (down_spec (Semaphore.mk 2 []) 0).1 (by decide)
  have h2 := (down_spec (Semaphore.mk 0 [3]) 7).2 (by decide)
  exact ⟨h1.1, h1.2.2, h2.2.1, h2.2.2⟩

/-- C2: `up` with an empty queue increments the counter by one and keeps
the queue empty; with a non-empty queue it removes exactly the front
continuation, resumes it, and leaves the counter unchanged. -/
theorem up_spec (s : Semaphore) :
    (s.queue = [] →
      s.up.1.capacityLeft = s.capacityLeft + 1 ∧
      s.up.1.queue = [] ∧
      s.up.2 = none) ∧
    (∀ w rest, s.queue = w :: rest →
      s.up.1.capacityLeft = s.capacityLeft ∧
      s.up.1.queue = rest ∧
      s.up.2 = some w) := by
  constructor
  · intro h
    rw [up_nil s h]
    exact ⟨rfl, h, rfl⟩
  · intro w rest h
    rw [up_cons s w rest h]
    exact ⟨rfl, rfl, rfl⟩

/-- Witness for C2: evaluates `up` on the concrete states `⟨1, []⟩` and
`⟨0, [4, 5]⟩`. -/
theorem up_spec_witness :
    (Semaphore.up (Semaphore.mk 1 [])).1.capacityLeft = 2 ∧
    (Semaphore.up (Semaphore.mk 0 [4, 5])).1.capacityLeft = 0 ∧
    (Semaphore.up (Semaphore.mk 0 [4, 5])).1.queue = [5] ∧
    (Semaphore.up (Semaphore.mk 0 [4, 5])).2 = some 4 := by
  have h1 := (up_spec (Semaphore.mk 1 [])).1 rfl
  have h2 := (up_spec (Semaphore.mk 0 [4, 5])).2 4 [5] rfl
  exact ⟨h1.1, h2.1, h2.2.1, h2.2.2⟩

/- ### Reachability invariant (C3) -/

/-- Invariant relating the counter and the queue: whenever the queue is
non-empty the counter is non-positive. -/
def capQueueInv (s : Semaphore) : Prop :=
  s.queue ≠ [] → s.capacityLeft ≤ 0

/-- Strengthened invariant holding when the initial capacity was
non-negative: the counter never goes negative, and a non-empty queue
forces it to be exactly zero. -/
def nonnegInv (s : Semaphore) : Prop :=
  0 ≤ s.capacityLeft ∧ (s.queue ≠ [] → s.capacityLeft = 0)

theorem capQueueInv_step (s : Semaphore) (op : Op) (h : capQueueInv s) :
    capQueueInv (stepOp s op) := by
  cases op with
  | down id =>
    by_cases hc : s.capacityLeft > 0
    · intro hq
      rw [stepOp, down_pos s id hc] at hq ⊢
      exact absurd (h hq) (not_le.mpr hc)
    · intro _
      rw [stepOp, down_nonpos s id (not_lt.mp hc)]
      exact not_lt.mp hc
  | up =>
    cases hq : s.queue with
    | nil =>
      intro habs
      rw [stepOp, up_nil s hq] at habs
      exact absurd hq habs
    | cons w rest =>
      intro _
      rw [stepOp, up_cons s w rest hq]
      exact h (by simp [hq])

theorem nonnegInv_step (s : Semaphore) (op : Op) (h : nonnegInv s) :
    nonnegInv (stepOp s op) := by
  obtain ⟨hge, hz⟩ := h
  cases op with
  | down id =>
    by_cases hc : s.capacityLeft > 0
    · rw [stepOp, down_pos s id hc]
      dsimp only [nonnegInv]
      refine ⟨by omega, fun hq => ?_⟩
      exact absurd (hz hq) (by omega)
    · rw [stepOp, down_nonpos s id (not_lt.mp hc)]
      dsimp only [nonnegInv]
      exact ⟨hge, fun _ => by omega⟩
  | up =>
    cases hq : s.queue with
    | nil =>
      rw [stepOp, up_nil s hq]
      dsimp only [nonnegInv]
      exact ⟨by omega, fun habs => absurd hq habs⟩
    | cons w rest =>
      rw [stepOp, up_cons s w rest hq]
      dsimp only [nonnegInv]
      exact ⟨hge, fun _ => hz (by simp [hq])⟩

theorem capQueueInv_run (s : Semaphore) (ops : List Op) (h : capQueueInv s) :
    capQueueInv (run s ops) := by
  induction ops generalizing s with
  | nil => exact h
  | cons op ops ih => exact ih (stepOp s op) (capQueueInv_step s op h)

theorem nonnegInv_run (s : Semaphore) (ops : List Op) (h : nonnegInv s) :
    nonnegInv (run s ops) := by
  induction ops generalizing s with
  | nil => exact h
  | cons op ops ih => exact ih (stepOp s op) (nonnegInv_step s op h)

/-- Counterexample to C3 as stated: the semaphore constructed with
capacity `-1` reaches, after a single `down`, a state with a non-empty
queue and `capacityLeft = -1 ≠ 0`. -/
theorem c3_counterexample :
    (run (Semaphore.create (-1)) [Op.down 0]).queue ≠ [] ∧
    (run (Semaphore.create (-1)) [Op.down 0]).capacityLeft ≠ 0 := by
  decide

/-- C3 (amended): in every state reachable from a constructed semaphore,
a non-empty queue forces `capacityLeft ≤ 0`; when the initial capacity is
non-negative, `capacityLeft` stays non-negative and a non-empty queue
forces it to be exactly `0`. -/
theorem reachable_inv (C : Int) (ops : List Op) :
    ((run (Semaphore.create C) ops).queue ≠ [] →
      (run (Semaphore.create C) ops).capacityLeft ≤ 0) ∧
    (0 ≤ C →
      0 ≤ (run (Semaphore.create C) ops).capacityLeft ∧
      ((run (Semaphore.create C) ops).queue ≠ [] →
        (run (Semaphore.create C) ops).capacityLeft = 0)) := by
  constructor
  · exact capQueueInv_run (Semaphore.create C) ops (fun habs => absurd rfl habs)
  · intro hC
    exact nonnegInv_run (Semaphore.create C) ops ⟨hC, fun habs => absurd rfl habs⟩

/-- Witness for C3 (amended): the concrete run `down 1` from capacity `0`
reaches queue `[1]` with counter `0`. -/
theorem reachable_inv_witness :
    (run (Semaphore.create 0) [Op.down 1]).capacityLeft ≤ 0 ∧
    (run (Semaphore.create 0) [Op.down 1]).capacityLeft = 0 := by
  have h := reachable_inv 0 [Op.down 1]
  exact ⟨h.1 (by decide), (h.2 (by decide)).2 (by decide)⟩

/- ### FIFO wakeup (C4) and over-release (C5) -/

/-- Each `up` against a state with `k` fewer than `queue.length` waiters
pops exactly one waiter from the front: after `k` calls, exactly the
first `k` queued waiters have been resumed, in queue order, the queue
holds the remaining waiters, and the counter is untouched. -/
theorem runUps_fifo (s : Semaphore) (k : Nat) (h : k ≤ s.queue.length) :
    (runUps s k).2 = s.queue.take k ∧
    (runUps s k).1.queue = s.queue.drop k ∧
    (runUps s k).1.capacityLeft = s.capacityLeft := by
  induction k generalizing s with
  | zero => exact ⟨rfl, rfl, rfl⟩
  | succ k ih =>
    cases hq : s.queue with
    | nil => rw [hq] at h; exact absurd h (by simp)
    | cons w rest =>
      have hk : k ≤ rest.length := by
        rw [hq] at h; simpa using h
      have hup := up_cons s w rest hq
      have ihr := ih ({ s with queue := rest }) hk
      simp only [runUps, hup, hq]
      refine ⟨?_, ?_, ?_⟩
      · simpa using ihr.1
      · simpa using ihr.2.1
      · simpa using ihr.2.2

/-- C4: with `N` waiters queued, each `up` resumes exactly one waiter —
the earliest-enqueued — so `k ≤ N` releases resume exactly the first `k`
waiters in enqueue order, `N` releases resume all of them, and fewer
than `N` releases leave some waiter still queued. -/
theorem fifo_wakeup (s : Semaphore) (k : Nat) (h : k ≤ s.queue.length) :
    (runUps s k).2 = s.queue.take k ∧
    (runUps s k).2.length = k ∧
    (runUps s s.queue.length).2 = s.queue ∧
    (runUps s s.queue.length).1.queue = [] ∧
    (k < s.queue.length → (runUps s k).1.queue ≠ []) := by
  have hf := runUps_fifo s k h
  have hfull := runUps_fifo s s.queue.length (le_refl _)
  refine ⟨hf.1, ?_, ?_, ?_, ?_⟩
  · rw [hf.1, List.length_take]
    omega
  · simpa using hfull.1
  · rw [hfull.2.1]
    simp
  · intro hlt habs
    rw [hf.2.1] at habs
    have hlen := congrArg List.length habs
    simp [List.length_drop] at hlen
    omega

/-- Witness for C4: three waiters, two releases resume exactly `[1, 2]`
and leave `3` queued. -/
theorem fifo_wakeup_witness :
    (runUps (Semaphore.mk 0 [1, 2, 3]) 2).2 = [1, 2] ∧
    (runUps (Semaphore.mk 0 [1, 2, 3]) 3).2 = [1, 2, 3] ∧
    (runUps (Semaphore.mk 0 [1, 2, 3]) 3).1.queue = [] ∧
    (runUps (Semaphore.mk 0 [1, 2, 3]) 2).1.queue ≠ [] := by
  have h := fifo_wakeup (Semaphore.mk 0 [1, 2, 3]) 2 (by decide)
  exact ⟨h.1, h.2.2.1, h.2.2.2.1, h.2.2.2.2 (by decide)⟩

/-- `n` consecutive `up` calls against an empty queue keep the queue
empty, resume nobody, and add `n` to the counter. -/
theorem runUps_no_waiters (s : Semaphore) (n : Nat) (h : s.queue = []) :
    (runUps s n).1.capacityLeft = s.capacityLeft + n ∧
    (runUps s n).1.queue = [] ∧
    (runUps s n).2 = [] := by
  induction n generalizing s with
  | zero => exact ⟨by simp [runUps], h, rfl⟩
  | succ n ih =>
    have hup := up_nil s h
    have ihr := ih ({ s with capacityLeft := s.capacityLeft + 1 }) h
    simp only [runUps, hup, Option.toList_none, List.nil_append]
    refine ⟨?_, ihr.2.1, ihr.2.2⟩
    rw [ihr.1]
    push_cast
    ring

/-- C5: with no waiters present, `N` release calls raise no error and
increase `capacityLeft` by exactly `N`, for any `N ≥ 0`, regardless of
the original capacity. -/
theorem over_release (s : Semaphore) (n : Nat) (h : s.queue = []) :
    (runUps s n).1.capacityLeft = s.capacityLeft + n ∧
    (runUps s n).1.queue = [] := by
  have hr := runUps_no_waiters s n h
  exact ⟨hr.1, hr.2.1⟩

/-- Witness for C5: seven releases on a fresh capacity-2 semaphore (more
than its capacity was ever acquired) leave the counter at 9. -/
theorem over_release_witness :
    (runUps (Semaphore.create 2) 7).1.capacityLeft = 9 ∧
    (runUps (Semaphore.create 2) 7).1.queue = [] := by
  have h := over_release (Semaphore.create 2) 7 rfl
  constructor
  · rw [h.1]
    decide
  · exact h.2

/-- Counterexample to C6 as stated: for `n = 1`, the semaphore
constructed with capacity `-1` still suspends an acquisition after `n = 1`
release (its counter is only back to `0`); `n` releases do not suffice. -/
theorem neg_capacity_counterexample :
    ((runUps (Semaphore.create (-1)) 1).1.down 0).2 = DownResult.suspended ∧
    (runUps (Semaphore.create (-1)) 1).1.capacityLeft = 0 := by
  decide

/-- C6 (amended): a semaphore constructed with capacity `-n` (`n > 0`)
is accepted without validation, and exactly `n + 1` releases (with no
waiters present) are needed before a `down` can succeed immediately:
after any `k ≤ n` releases a `down` still suspends, while after `n + 1`
releases it completes immediately. -/
theorem neg_capacity_releases (n : Nat) (hn : 0 < n) (k : Nat) (hk : k ≤ n) (id : Nat) :
    (Semaphore.create (-(n : Int))).capacityLeft = -(n : Int) ∧
    ((runUps (Semaphore.create (-(n : Int))) k).1.down id).2 = DownResult.suspended ∧
    ((runUps (Semaphore.create (-(n : Int))) (n + 1)).1.down id).2 = DownResult.immediate := by
  have h1 := runUps_no_waiters (Semaphore.create (-(n : Int))) k rfl
  have h2 := runUps_no_waiters (Semaphore.create (-(n : Int))) (n + 1) rfl
  refine ⟨rfl, ?_, ?_⟩
  · have hc : (runUps (Semaphore.create (-(n : Int))) k).1.capacityLeft ≤ 0 := by
      rw [h1.1]
      show -(n : Int) + k ≤ 0
      omega
    rw [down_nonpos _ id hc]
  · have hc : (runUps (Semaphore.create (-(n : Int))) (n + 1)).1.capacityLeft > 0 := by
      rw [h2.1]
      show -(n : Int) + (n + 1 : Nat) > 0
      push_cast
      omega
    rw [down_pos _ id hc]

/-- Witness for C6 (amended): with `n = 2`, after 2 releases a `down`
still suspends, after 3 it is immediate. -/
theorem neg_capacity_releases_witness :
    ((runUps (Semaphore.create (-2)) 2).1.down 9).2 = DownResult.suspended ∧
    ((runUps (Semaphore.create (-2)) 3).1.down 9).2 = DownResult.immediate := by
  have h := neg_capacity_releases 2 (by decide) 2 (by decide) 9
  exact ⟨h.2.1, h.2.2⟩

/-- Consecutive `down` calls whose number does not exceed the available
capacity, against an empty queue, all complete immediately, never touch
the queue, and deduct exactly their number from the counter. -/
theorem runDowns_immediate (s : Semaphore) (ids : List Nat)
    (hq : s.queue = []) (hc : (ids.length : Int) ≤ s.capacityLeft) :
    (runDowns s ids).2 = List.replicate ids.length DownResult.immediate ∧
    (runDowns s ids).1.queue = [] ∧
    (runDowns s ids).1.capacityLeft = s.capacityLeft - ids.length := by
  induction ids generalizing s with
  | nil => exact ⟨rfl, hq, by simp [runDowns]⟩
  | cons id ids ih =>
    have hpos : s.capacityLeft > 0 := by
      simp at hc
      omega
    have hdown := down_pos s id hpos
    have ihr := ih ({ s with capacityLeft := s.capacityLeft - 1 }) hq (by
      show (ids.length : Int) ≤ s.capacityLeft - 1
      simp at hc
      omega)
    simp only [runDowns, hdown]
    refine ⟨?_, ihr.2.1, ?_⟩
    · rw [List.length_cons, List.replicate_succ]
      exact congrArg _ ihr.1
    · rw [ihr.2.2, List.length_cons]
      push_cast
      ring

/-- C7: for every initial capacity `C ≥ 1`, issuing `C` acquisitions in
sequence on a fresh semaphore completes each one immediately, with no
continuation ever added to the wait queue. -/
theorem full_capacity_downs (C : Int) (hC : 1 ≤ C) (ids : List Nat)
    (hlen : (ids.length : Int) = C) :
    (runDowns (Semaphore.create C) ids).2 =
      List.replicate ids.length DownResult.immediate ∧
    (runDowns (Semaphore.create C) ids).1.queue = [] ∧
    (runDowns (Semaphore.create C) ids).1.capacityLeft = 0 := by
  have h := runDowns_immediate (Semaphore.create C) ids rfl (le_of_eq hlen)
  refine ⟨h.1, h.2.1, ?_⟩
  rw [h.2.2]
  show C - (ids.length : Int) = 0
  omega

/-- Witness for C7: capacity 3, three acquisitions, all immediate. -/
theorem full_capacity_downs_witness :
    (runDowns (Semaphore.create 3) [0, 1, 2]).2 =
      [DownResult.immediate, DownResult.immediate, DownResult.immediate] ∧
    (runDowns (Semaphore.create 3) [0, 1, 2]).1.queue = [] ∧
    (runDowns (Semaphore.create 3) [0, 1, 2]).1.capacityLeft = 0 := by
  have h := full_capacity_downs 3 (by decide) [0, 1, 2] (by decide)
  exact ⟨h.1, h.2.1, h.2.2⟩

/-- C8: construction never fails and performs no validation — for any
integer capacity the new semaphore has `capacityLeft` equal to the
supplied value and an empty queue — and on a capacity-1 semaphore the
sequence down, up, down, up, down completes every step immediately and
ends with `capacityLeft = 0` and an empty queue. -/
theorem create_and_cycle (c : Int) :
    (Semaphore.create c).capacityLeft = c ∧
    (Semaphore.create c).queue = [] ∧
    runTrace (Semaphore.create 1) [Op.down 0, Op.up, Op.down 1, Op.up, Op.down 2] =
      (Semaphore.mk 0 [],
        [DownResult.immediate, DownResult.immediate, DownResult.immediate]) := by
  exact ⟨rfl, rfl, by decide⟩

/- ### Conservation of capacity minus queue length (C9) -/

theorem countDowns_cons (op : Op) (ops : List Op) :
    countDowns (op :: ops) =
      countDowns ops + (match op with | Op.down _ => 1 | Op.up => 0) := by
  cases op <;> simp [countDowns, List.countP_cons]

theorem countUps_cons (op : Op) (ops : List Op) :
    countUps (op :: ops) =
      countUps ops + (match op with | Op.down _ => 0 | Op.up => 1) := by
  cases op <;> simp [countUps, List.countP_cons]

theorem stepOp_diff (s : Semaphore) (op : Op) :
    (stepOp s op).capacityLeft - ((stepOp s op).queue.length : Int) =
      s.capacityLeft - s.queue.length +
        (match op with | Op.down _ => (-1 : Int) | Op.up => 1) := by
  cases op with
  | down id =>
    by_cases hc : s.capacityLeft > 0
    · rw [stepOp, down_pos s id hc]
      dsimp only
      ring
    · rw [stepOp, down_nonpos s id (not_lt.mp hc)]
      dsimp only
      simp only [List.length_append, List.length_cons, List.length_nil]
      push_cast
      ring
  | up =>
    cases hq : s.queue with
    | nil =>
      rw [stepOp, up_nil s hq]
      dsimp only
      simp only [hq, List.length_nil]
      push_cast
      ring
    | cons w rest =>
      rw [stepOp, up_cons s w rest hq]
      dsimp only
      simp only [hq, List.length_cons]
      push_cast
      ring

theorem run_diff (s : Semaphore) (ops : List Op) :
    (run s ops).capacityLeft - ((run s ops).queue.length : Int) =
      s.capacityLeft - s.queue.length - countDowns ops + countUps ops := by
  induction ops generalizing s with
  | nil => simp [run, countDowns, countUps]
  | cons op ops ih =>
    have hstep := stepOp_diff s op
    have ihr := ih (stepOp s op)
    have hrun : run s (op :: ops) = run (stepOp s op) ops := rfl
    rw [hrun, ihr, hstep, countDowns_cons, countUps_cons]
    cases op <;> push_cast <;> ring

/-- C9: conservation law — `down` decreases `capacityLeft − |queue|` by
exactly 1 mutating exactly one field by one unit, `up` increases it by
exactly 1 mutating exactly one field by one unit, and after any run of
operations from initial capacity `C` the quantity equals
`C − (number of downs) + (number of ups)`. -/
theorem conservation (C : Int) (ops : List Op) (s : Semaphore) (id : Nat) :
    ((s.down id).1.capacityLeft - ((s.down id).1.queue.length : Int) =
      s.capacityLeft - s.queue.length - 1) ∧
    (((s.down id).1.capacityLeft = s.capacityLeft - 1 ∧ (s.down id).1.queue = s.queue) ∨
      ((s.down id).1.capacityLeft = s.capacityLeft ∧
        (s.down id).1.queue = s.queue ++ [id])) ∧
    (s.up.1.capacityLeft - (s.up.1.queue.length : Int) =
      s.capacityLeft - s.queue.length + 1) ∧
    ((s.up.1.capacityLeft = s.capacityLeft + 1 ∧ s.up.1.queue = s.queue) ∨
      (s.up.1.capacityLeft = s.capacityLeft ∧
        (s.up.1.queue.length : Int) = (s.queue.length : Int) - 1)) ∧
    ((run (Semaphore.create C) ops).capacityLeft -
        ((run (Semaphore.create C) ops).queue.length : Int) =
      C - countDowns ops + countUps ops) := by
  have hd : (s.down id).1.capacityLeft - ((s.down id).1.queue.length : Int) =
      s.capacityLeft - s.queue.length + (-1) := stepOp_diff s (Op.down id)
  have hu : s.up.1.capacityLeft - (s.up.1.queue.length : Int) =
      s.capacityLeft - s.queue.length + 1 := stepOp_diff s Op.up
  refine ⟨by rw [hd]; ring, ?_, hu, ?_, ?_⟩
  · by_cases hc : s.capacityLeft > 0
    · rw [down_pos s id hc]
      exact Or.inl ⟨rfl, rfl⟩
    · rw [down_nonpos s id (not_lt.mp hc)]
      exact Or.inr ⟨rfl, rfl⟩
  · cases hq : s.queue with
    | nil =>
      rw [up_nil s hq]
      exact Or.inl ⟨rfl, hq⟩
    | cons w rest =>
      rw [up_cons s w rest hq]
      refine Or.inr ⟨rfl, ?_⟩
      dsimp only
      rw [List.length_cons]
      push_cast
      ring
  · have hr := run_diff (Semaphore.create C) ops
    rw [hr]
    show C - ((List.length [] : Nat) : Int) - countDowns ops + countUps ops = _
    simp

/- ### Handoff with a negative counter (C10) -/

/-- C10: whenever the queue is non-empty — regardless of the sign of
`capacityLeft`, including negative values — a single `up` resumes
exactly the front waiter and leaves `capacityLeft` unchanged; the
release is never absorbed into the counter while a waiter exists. -/
theorem up_resumes_waiter (s : Semaphore) (h : s.queue ≠ []) :
    ∃ w rest, s.queue = w :: rest ∧
      s.up = (Semaphore.mk s.capacityLeft rest, some w) := by
  cases hq : s.queue with
  | nil => exact absurd hq h
  | cons w rest => exact ⟨w, rest, rfl, up_cons s w rest hq⟩

/-- Witness for C10: the state reached by one `down` on a capacity-(-2)
semaphore has a waiter; one `up` resumes it while the counter stays at
`-2`. -/
theorem up_resumes_waiter_witness :
    Semaphore.up (Semaphore.mk (-2) [5]) = (Semaphore.mk (-2) [], some 5) ∧
    (Semaphore.mk (-2) [5]).capacityLeft < 0 ∧
    ((Semaphore.create (-2)).down 5).1 = Semaphore.mk (-2) [5] := by
  obtain ⟨w, rest, hq, hup⟩ := up_resumes_waiter (Semaphore.mk (-2) [5]) (by decide)
  have h5 : (5 : Nat) :: ([] : List Nat) = w :: rest := hq
  obtain ⟨rfl, rfl⟩ : w = 5 ∧ rest = ([] : List Nat) := by
    injection h5 with h1 h2
    exact ⟨h1.symm, h2.symm⟩
  exact ⟨hup, by decide, by decide⟩
